import Mathlib

/-!
Verification development for the nudging subsystem of the scream repository
(`components/eamxx/src/physics/nudging/atmosphere_nudging.hpp`) and the
relative-humidity diagnostic
(`components/scream/src/diagnostics/relative_humidity.hpp`).

The nudging header declares the lifecycle entry points (`initialize_impl`,
`run_impl`, `finalize_impl`) and the data members (`m_num_cols`, `m_num_levs`,
`m_num_src_levs`, `datafile`, `T_mid_r_m`), but the repository snapshot holds
no implementation file for them, so the operational pieces below are modelled
from the specification's contracts.  Real-valued fields are embedded as
rationals; a 2-D field (columns by levels) is a function `ℕ → ℕ → ℚ`.
-/

namespace Scream

/-- Error taxonomy of the nudging subsystem (spec section 7). -/
inductive NudgeError where
  | ConfigError
  | DataFormatError
  | DataExhausted
  | InvalidState
deriving DecidableEq, Repr

/-- Modelled from the spec: a Snapshot of the reference dataset.  Missing
from src (the header keeps only the single retained field `T_mid_r_m`); the
spec's data model gives it a timestamp, a columns-by-source-levels value
array, and the record's native vertical level coordinates. -/
structure Snapshot where
  ts : ℚ
  levels : List ℚ
  values : ℕ → ℕ → ℚ

/-- Modelled from the spec: the BracketingWindow, a pair of snapshots whose
timestamps straddle the current simulation time. -/
structure Window where
  lower : Snapshot
  upper : Snapshot

/-- Modelled from the spec: the Temporal Interpolator (spec section 4.2),
whose implementation is missing from src.  Linear interpolation in time,
per column and per source level; if the two timestamps coincide it returns
the lower snapshot's values without dividing. -/
def interpolate (w : Window) (t : ℚ) : ℕ → ℕ → ℚ :=
  fun c k =>
    if w.upper.ts = w.lower.ts then w.lower.values c k
    else
      w.lower.values c k +
        (t - w.lower.ts) / (w.upper.ts - w.lower.ts) *
          (w.upper.values c k - w.lower.values c k)

/-- Modelled from the spec: the Nudging Tendency Calculator (spec section
4.4), whose implementation is missing from src.  Per column and per model
level the state is pulled toward the remapped reference by the clamped
fraction `min 1 (dt / tau)`. -/
def apply (state ref : ℕ → ℕ → ℚ) (tau dt : ℚ) : ℕ → ℕ → ℚ :=
  fun c l => state c l + (ref c l - state c l) * min 1 (dt / tau)

/-- Modelled from the spec: one-dimensional monotone linear interpolation
over a list of (level coordinate, value) points with strictly increasing
coordinates, with flat extrapolation past both ends (spec section 4.3).
The Vertical Remapper implementation is missing from src. -/
def interp1 : List (ℚ × ℚ) → ℚ → ℚ
  | [], _ => 0
  | [p], _ => p.2
  | p :: q :: ps, t =>
    if t ≤ p.1 then p.2
    else if t ≤ q.1 then p.2 + (t - p.1) / (q.1 - p.1) * (q.2 - p.2)
    else interp1 (q :: ps) t

/-- Modelled from the spec: remap over points whose coordinates are strictly
monotonic in either direction; a decreasing coordinate list is reversed
first (spec section 4.3 admits increasing or decreasing source levels). -/
def remapPts (pts : List (ℚ × ℚ)) (t : ℚ) : ℚ :=
  match pts with
  | p :: q :: _ => if q.1 < p.1 then interp1 pts.reverse t else interp1 pts t
  | _ => interp1 pts t

/-- Modelled from the spec: per-column vertical remap from source level
coordinates `xs` carrying values `ys`, evaluated at one target level `t`. -/
def remapColumn (xs ys : List ℚ) (t : ℚ) : ℚ :=
  remapPts (xs.zip ys) t

/-- Least element of a column's value list (0 for an empty column). -/
def colMin : List ℚ → ℚ
  | [] => 0
  | [a] => a
  | a :: b :: l => min a (colMin (b :: l))

/-- Greatest element of a column's value list (0 for an empty column). -/
def colMax : List ℚ → ℚ
  | [] => 0
  | [a] => a
  | a :: b :: l => max a (colMax (b :: l))

/-- Modelled from the spec: `ensure_window` of the Reference Snapshot Store
(spec section 4.1), whose implementation is missing from src.  The dataset is
the time-ordered list of remaining entries; the store advances past obsolete
snapshots until the held pair brackets the requested time, and reports
`DataExhausted` once the data runs out. -/
def ensure_window : List Snapshot → ℚ → Except NudgeError Window
  | e0 :: e1 :: rest, t =>
    if t ≤ e1.ts then Except.ok ⟨e0, e1⟩
    else ensure_window (e1 :: rest) t
  | _, _ => Except.error NudgeError.DataExhausted

/-- Timestamp of the last dataset entry. -/
def lastTs : List Snapshot → ℚ
  | [] => 0
  | [e] => e.ts
  | _ :: e :: rest => lastTs (e :: rest)

/-- Strict time-ordering of dataset entries (spec section 4.1). -/
def TimeOrdered (es : List Snapshot) : Prop :=
  List.Chain' (fun a b => a.ts < b.ts) es

/-- Modelled from the spec: the in-memory snapshot buffer of the Reference
Snapshot Store.  Missing from src (the header keeps a single view member
`T_mid_r_m`); the spec's data model holds the bracketing snapshots in
`snaps` with the unread dataset entries in `remaining`. -/
structure Store where
  snaps : List Snapshot
  remaining : List Snapshot

/-- Modelled from the spec: one window advance — discard the obsolete
snapshot and read the next dataset entry (spec sections 3 and 4.1). -/
def advanceStore (s : Store) : Except NudgeError Store :=
  match s.remaining with
  | [] => Except.error NudgeError.DataExhausted
  | e :: rest => Except.ok ⟨s.snaps.drop 1 ++ [e], rest⟩

/-- Stores reachable during execution: seeded with the first two dataset
entries at initialization, then advanced one entry at a time. -/
inductive StoreReach : Store → Prop where
  | seed (e0 e1 : Snapshot) (rest : List Snapshot) :
      StoreReach ⟨[e0, e1], rest⟩
  | advance (s s' : Store) :
      StoreReach s → advanceStore s = Except.ok s' → StoreReach s'

/-- Last point of a coordinate/value list ((0, 0) for an empty list). -/
def lastPt : List (ℚ × ℚ) → ℚ × ℚ
  | [] => (0, 0)
  | [p] => p
  | _ :: q :: ps => lastPt (q :: ps)

/-- Modelled from the spec: the grid-level Vertical Remapper — every column
is remapped independently; target level `l` is looked up in the target level
coordinate list (spec section 4.3). -/
def remapGrid (srcLevs : List ℚ) (v : ℕ → ℕ → ℚ) (tgtLevs : List ℚ) :
    ℕ → ℕ → ℚ :=
  fun c l =>
    remapColumn srcLevs ((List.range srcLevs.length).map (v c)) (tgtLevs.getD l 0)

/-- Lifecycle states of the Process Driver (spec section 4.5). -/
inductive Phase where
  | Uninitialized
  | Initialized
  | Running
  | Finalized
deriving DecidableEq, Repr

/-- Modelled from the spec: the Process Driver (spec section 4.5).  The
header declares `initialize_impl`, `run_impl` and `finalize_impl` but their
bodies are missing from src; the driver holds the lifecycle phase, the
dataset entries, the target level coordinates, the relaxation timescale and
the nudged state field. -/
structure Driver where
  phase : Phase
  entries : List Snapshot
  targetLevels : List ℚ
  tau : ℚ
  state : ℕ → ℕ → ℚ

/-- Modelled from the spec: one `run` step of the Process Driver — requires
Initialized or Running, chains window lookup, temporal interpolation,
vertical remap and tendency application, and rejects calls after `finalize`
with `InvalidState` (spec section 4.5). -/
def runStep (d : Driver) (t dt : ℚ) : Except NudgeError Driver :=
  match d.phase with
  | Phase.Uninitialized => Except.error NudgeError.InvalidState
  | Phase.Finalized => Except.error NudgeError.InvalidState
  | _ =>
    match ensure_window d.entries t with
    | Except.error e => Except.error e
    | Except.ok w =>
      let ref := remapGrid w.lower.levels (interpolate w t) d.targetLevels
      Except.ok { d with
        phase := Phase.Running
        state := apply d.state ref d.tau dt }

/-- Modelled from the spec: `finalize` — releases resources and moves to
the Finalized phase (spec section 4.5). -/
def finalizeDriver (d : Driver) : Driver :=
  { d with phase := Phase.Finalized, entries := [] }

/-- The body of `RelativeHumidityDiagnostic::get_required_grids` from
`components/scream/src/diagnostics/relative_humidity.hpp`: the function's
local static set `s` is threaded explicitly as state.  A call inserts the
calling instance's "Grid" parameter into the shared static set and returns
that set; the first component is the returned copy, the second the static
set left behind for the next call. -/
def get_required_grids (grid : String) (s : Finset String) :
    Finset String × Finset String :=
  (insert grid s, insert grid s)

/-- The static set after a sequence of `get_required_grids` calls whose
"Grid" parameters are listed in order. -/
def staticSetAfter (calls : List String) (s : Finset String) : Finset String :=
  calls.foldl (fun acc g => (get_required_grids g acc).2) s

lemma ensure_window_cons (e0 e1 : Snapshot) (rest : List Snapshot) (t : ℚ) :
    ensure_window (e0 :: e1 :: rest) t =
      if t ≤ e1.ts then Except.ok ⟨e0, e1⟩
      else ensure_window (e1 :: rest) t := rfl

lemma head_le_lastTs :
    ∀ (rest : List Snapshot) (e : Snapshot), TimeOrdered (e :: rest) →
      e.ts ≤ lastTs (e :: rest) := by
  intro rest
  induction rest with
  | nil => intro e _; simp [lastTs]
  | cons e1 rest ih =>
    intro e hord
    rw [TimeOrdered, List.chain'_cons] at hord
    have h1 := ih e1 hord.2
    calc e.ts ≤ e1.ts := le_of_lt hord.1
      _ ≤ lastTs (e1 :: rest) := h1
      _ = lastTs (e :: e1 :: rest) := rfl

lemma colMin_le (ys : List ℚ) (y : ℚ) (hy : y ∈ ys) : colMin ys ≤ y := by
  induction ys with
  | nil => cases hy
  | cons a l ih =>
    cases l with
    | nil => simp at hy; simp [colMin, hy]
    | cons b l' =>
      rcases List.mem_cons.mp hy with h | h
      · subst h; exact min_le_left _ _
      · exact le_trans (min_le_right _ _) (ih h)

lemma le_colMax (ys : List ℚ) (y : ℚ) (hy : y ∈ ys) : y ≤ colMax ys := by
  induction ys with
  | nil => cases hy
  | cons a l ih =>
    cases l with
    | nil => simp at hy; simp [colMax, hy]
    | cons b l' =>
      rcases List.mem_cons.mp hy with h | h
      · subst h; exact le_max_left _ _
      · exact le_trans (ih h) (le_max_right _ _)

lemma colMin_mem (ys : List ℚ) (h : ys ≠ []) : colMin ys ∈ ys := by
  induction ys with
  | nil => exact absurd rfl h
  | cons a l ih =>
    cases l with
    | nil => simp [colMin]
    | cons b l' =>
      rcases min_cases a (colMin (b :: l')) with ⟨heq, _⟩ | ⟨heq, _⟩
      · simp only [colMin, heq]; exact List.mem_cons_self a _
      · simp only [colMin, heq]
        exact List.mem_cons_of_mem a (ih (by simp))

lemma colMax_mem (ys : List ℚ) (h : ys ≠ []) : colMax ys ∈ ys := by
  induction ys with
  | nil => exact absurd rfl h
  | cons a l ih =>
    cases l with
    | nil => simp [colMax]
    | cons b l' =>
      rcases max_cases a (colMax (b :: l')) with ⟨heq, _⟩ | ⟨heq, _⟩
      · simp only [colMax, heq]; exact List.mem_cons_self a _
      · simp only [colMax, heq]
        exact List.mem_cons_of_mem a (ih (by simp))

lemma colMin_reverse (ys : List ℚ) : colMin ys.reverse = colMin ys := by
  cases hys : ys with
  | nil => rfl
  | cons a l =>
    have hne : ys ≠ [] := by simp [hys]
    have hne' : ys.reverse ≠ [] := by simp [hys]
    rw [← hys]
    apply le_antisymm
    · exact colMin_le _ _ (List.mem_reverse.mpr (colMin_mem ys hne))
    · exact colMin_le _ _ (List.mem_reverse.mp (colMin_mem ys.reverse hne'))

lemma colMax_reverse (ys : List ℚ) : colMax ys.reverse = colMax ys := by
  cases hys : ys with
  | nil => rfl
  | cons a l =>
    have hne : ys ≠ [] := by simp [hys]
    have hne' : ys.reverse ≠ [] := by simp [hys]
    rw [← hys]
    apply le_antisymm
    · exact le_colMax _ _ (List.mem_reverse.mp (colMax_mem ys.reverse hne'))
    · exact le_colMax _ _ (List.mem_reverse.mpr (colMax_mem ys hne))

lemma interp1_cons (p q : ℚ × ℚ) (ps : List (ℚ × ℚ)) (t : ℚ) :
    interp1 (p :: q :: ps) t =
      if t ≤ p.1 then p.2
      else if t ≤ q.1 then p.2 + (t - p.1) / (q.1 - p.1) * (q.2 - p.2)
      else interp1 (q :: ps) t := rfl

lemma chain_head_lt (ps : List (ℚ × ℚ)) (q : ℚ × ℚ)
    (h : List.Chain' (fun a b : ℚ × ℚ => a.1 < b.1) (q :: ps)) :
    ∀ r ∈ ps, q.1 < r.1 := by
  induction ps generalizing q with
  | nil => intro r hr; cases hr
  | cons r0 ps' ih =>
    intro r hr
    rw [List.chain'_cons] at h
    rcases List.mem_cons.mp hr with h' | h'
    · subst h'; exact h.1
    · exact lt_trans h.1 (ih r0 h.2 r h')

lemma chain_head_le (p : ℚ × ℚ) (ps : List (ℚ × ℚ))
    (h : List.Chain' (fun a b : ℚ × ℚ => a.1 < b.1) (p :: ps)) :
    ∀ r ∈ p :: ps, p.1 ≤ r.1 := by
  intro r hr
  rcases List.mem_cons.mp hr with h' | h'
  · subst h'; exact le_refl _
  · exact le_of_lt (chain_head_lt ps p h r h')

lemma lastPt_mem : ∀ (l : List (ℚ × ℚ)), l ≠ [] → lastPt l ∈ l := by
  intro l
  induction l with
  | nil => intro h; exact absurd rfl h
  | cons p ps ih =>
    intro _
    cases ps with
    | nil => simp [lastPt]
    | cons q ps' =>
      exact List.mem_cons_of_mem p (ih (by simp))

lemma chain_le_lastPt : ∀ (l : List (ℚ × ℚ)),
    List.Chain' (fun a b : ℚ × ℚ => a.1 < b.1) l →
    ∀ r ∈ l, r.1 ≤ (lastPt l).1 := by
  intro l
  induction l with
  | nil => intro _ r hr; cases hr
  | cons p ps ih =>
    intro h r hr
    cases ps with
    | nil =>
      rcases List.mem_cons.mp hr with h' | h'
      · subst h'; exact le_refl _
      · cases h'
    | cons q ps' =>
      rw [List.chain'_cons] at h
      have hlast : lastPt (p :: q :: ps') = lastPt (q :: ps') := rfl
      rw [hlast]
      rcases List.mem_cons.mp hr with h' | h'
      · subst h'
        calc r.1 ≤ q.1 := le_of_lt h.1
          _ ≤ (lastPt (q :: ps')).1 := ih h.2 q (by simp)
      · exact ih h.2 r h'

lemma interp1_head (p : ℚ × ℚ) (ps : List (ℚ × ℚ)) (t : ℚ) (ht : t ≤ p.1) :
    interp1 (p :: ps) t = p.2 := by
  cases ps with
  | nil => rfl
  | cons q ps' => rw [interp1_cons, if_pos ht]

lemma interp1_above : ∀ (ps : List (ℚ × ℚ)) (p : ℚ × ℚ) (t : ℚ),
    (∀ r ∈ p :: ps, r.1 < t) → interp1 (p :: ps) t = (lastPt (p :: ps)).2 := by
  intro ps
  induction ps with
  | nil => intro p t _; rfl
  | cons q ps' ih =>
    intro p t h
    rw [interp1_cons,
      if_neg (not_le.mpr (h p (by simp))),
      if_neg (not_le.mpr (h q (by simp)))]
    exact ih q t (fun r hr => h r (List.mem_cons_of_mem p hr))

lemma interp1_bounds : ∀ (pts : List (ℚ × ℚ)),
    List.Chain' (fun p q : ℚ × ℚ => p.1 < q.1) pts → pts ≠ [] → ∀ t : ℚ,
    colMin (pts.map Prod.snd) ≤ interp1 pts t ∧
      interp1 pts t ≤ colMax (pts.map Prod.snd) := by
  intro pts
  induction pts with
  | nil => intro _ h; exact absurd rfl h
  | cons p ps ih =>
    intro hord _ t
    cases ps with
    | nil => simp [interp1, colMin, colMax]
    | cons q ps' =>
      rw [List.chain'_cons] at hord
      rw [interp1_cons]
      by_cases h0 : t ≤ p.1
      · rw [if_pos h0]
        exact ⟨colMin_le _ _ (by simp), le_colMax _ _ (by simp)⟩
      · rw [if_neg h0]
        by_cases h1 : t ≤ q.1
        · rw [if_pos h1]
          have hx : p.1 < q.1 := hord.1
          have hden : (0:ℚ) < q.1 - p.1 := by linarith
          have hpt : p.1 < t := not_le.mp h0
          have hs0 : 0 ≤ (t - p.1) / (q.1 - p.1) :=
            div_nonneg (by linarith) (le_of_lt hden)
          have hs1 : (t - p.1) / (q.1 - p.1) ≤ 1 :=
            (div_le_one hden).mpr (by linarith)
          set s := (t - p.1) / (q.1 - p.1) with hs
          have hq2 : colMin (List.map Prod.snd (q :: ps')) ≤ q.2 :=
            colMin_le _ _ (by simp)
          have hq2' : q.2 ≤ colMax (List.map Prod.snd (q :: ps')) :=
            le_colMax _ _ (by simp)
          constructor
          · show min p.2 (colMin (List.map Prod.snd (q :: ps'))) ≤ _
            rcases le_total p.2 q.2 with hpq | hpq
            · exact le_trans (min_le_left _ _) (by nlinarith)
            · exact le_trans (le_trans (min_le_right _ _) hq2) (by nlinarith)
          · show _ ≤ max p.2 (colMax (List.map Prod.snd (q :: ps')))
            rcases le_total p.2 q.2 with hpq | hpq
            · exact le_trans (by nlinarith) (le_trans hq2' (le_max_right _ _))
            · exact le_trans (by nlinarith) (le_max_left _ _)
        · rw [if_neg h1]
          have hrec := ih hord.2 (by simp) t
          constructor
          · exact le_trans (min_le_right _ _) hrec.1
          · exact le_trans hrec.2 (le_max_right _ _)

lemma interp1_self : ∀ (pts : List (ℚ × ℚ)),
    List.Chain' (fun p q : ℚ × ℚ => p.1 < q.1) pts →
    ∀ (i : ℕ) (hi : i < pts.length),
      interp1 pts (pts.get ⟨i, hi⟩).1 = (pts.get ⟨i, hi⟩).2 := by
  intro pts
  induction pts with
  | nil => intro _ i hi; simp at hi
  | cons p ps ih =>
    intro hord i hi
    cases ps with
    | nil =>
      have h0 : i = 0 := by simpa using Nat.lt_one_iff.mp (by simpa using hi)
      subst h0
      simp [interp1]
    | cons q ps' =>
      rw [List.chain'_cons] at hord
      cases i with
      | zero =>
        simp only [List.get]
        exact interp1_head p (q :: ps') p.1 (le_refl _)
      | succ i' =>
        cases i' with
        | zero =>
          have hx : p.1 < q.1 := hord.1
          simp only [List.get]
          rw [interp1_cons, if_neg (not_le.mpr hx), if_pos (le_refl _),
            div_self (sub_ne_zero.mpr (ne_of_gt hx))]
          ring
        | succ k =>
          have hk : k < ps'.length := by simpa using hi
          have hmem : ps'.get ⟨k, hk⟩ ∈ ps' := List.get_mem _ _ hk
          have hqt : q.1 < (ps'.get ⟨k, hk⟩).1 :=
            chain_head_lt ps' q hord.2 _ hmem
          have hpt : p.1 < (ps'.get ⟨k, hk⟩).1 := lt_trans hord.1 hqt
          have hget : List.get (p :: q :: ps') ⟨k + 2, hi⟩ = ps'.get ⟨k, hk⟩ := rfl
          rw [hget, interp1_cons, if_neg (not_le.mpr hpt), if_neg (not_le.mpr hqt)]
          have := ih hord.2 (k + 1) (by simpa using hk)
          simpa using this

lemma interp1_nearest (pts : List (ℚ × ℚ))
    (hord : List.Chain' (fun p q : ℚ × ℚ => p.1 < q.1) pts)
    (hne : pts ≠ []) (t : ℚ)
    (hout : (∀ r ∈ pts, t < r.1) ∨ (∀ r ∈ pts, r.1 < t)) :
    ∃ p ∈ pts, interp1 pts t = p.2 ∧ ∀ q ∈ pts, |t - p.1| ≤ |t - q.1| := by
  obtain ⟨p0, ps, rfl⟩ := List.exists_cons_of_ne_nil hne
  rcases hout with hbelow | habove
  · refine ⟨p0, by simp,
      interp1_head p0 ps t (le_of_lt (hbelow p0 (by simp))), ?_⟩
    intro q hq
    have h1 : t < p0.1 := hbelow p0 (by simp)
    have h2 : p0.1 ≤ q.1 := chain_head_le p0 ps hord q hq
    rw [abs_of_neg (by linarith : t - p0.1 < 0),
      abs_of_neg (by linarith : t - q.1 < 0)]
    linarith
  · refine ⟨lastPt (p0 :: ps), lastPt_mem _ (by simp),
      interp1_above ps p0 t habove, ?_⟩
    intro q hq
    have h2 : q.1 ≤ (lastPt (p0 :: ps)).1 :=
      chain_le_lastPt _ hord q hq
    have h1 : (lastPt (p0 :: ps)).1 < t := habove _ (lastPt_mem _ (by simp))
    rw [abs_of_pos (by linarith : (0:ℚ) < t - (lastPt (p0 :: ps)).1),
      abs_of_pos (by linarith : (0:ℚ) < t - q.1)]
    linarith

lemma remapPts_incr (pts : List (ℚ × ℚ)) (t : ℚ)
    (hord : List.Chain' (fun p q : ℚ × ℚ => p.1 < q.1) pts) :
    remapPts pts t = interp1 pts t := by
  cases pts with
  | nil => rfl
  | cons p ps =>
    cases ps with
    | nil => rfl
    | cons q ps' =>
      rw [List.chain'_cons] at hord
      simp only [remapPts]
      rw [if_neg (not_lt.mpr (le_of_lt hord.1))]

lemma remapPts_decr (pts : List (ℚ × ℚ)) (t : ℚ)
    (hord : List.Chain' (fun p q : ℚ × ℚ => q.1 < p.1) pts)
    (h2 : 2 ≤ pts.length) :
    remapPts pts t = interp1 pts.reverse t := by
  cases pts with
  | nil => simp at h2
  | cons p ps =>
    cases ps with
    | nil => simp at h2
    | cons q ps' =>
      rw [List.chain'_cons] at hord
      simp only [remapPts]
      rw [if_pos hord.1]

lemma chain_zip_of_chain_fst (xs ys : List ℚ) (R : ℚ → ℚ → Prop)
    (hlen : xs.length = ys.length) (h : List.Chain' R xs) :
    List.Chain' (fun p q : ℚ × ℚ => R p.1 q.1) (xs.zip ys) := by
  have hmap : (xs.zip ys).map Prod.fst = xs :=
    List.map_fst_zip xs ys (le_of_eq hlen)
  rw [← hmap] at h
  exact (List.chain'_map Prod.fst).mp h

lemma chain_reverse_of_decr (pts : List (ℚ × ℚ))
    (h : List.Chain' (fun p q : ℚ × ℚ => q.1 < p.1) pts) :
    List.Chain' (fun p q : ℚ × ℚ => p.1 < q.1) pts.reverse := by
  rw [List.chain'_reverse]
  exact h

/-- Either the source levels are increasing, or they are decreasing with at
least two entries (short lists are trivially increasing as well). -/
lemma mono_cases (xs : List ℚ)
    (hmono : List.Chain' (fun a b : ℚ => a < b) xs ∨
      List.Chain' (fun a b : ℚ => b < a) xs) :
    List.Chain' (fun a b : ℚ => a < b) xs ∨
      (List.Chain' (fun a b : ℚ => b < a) xs ∧ 2 ≤ xs.length) := by
  rcases hmono with h | h
  · exact Or.inl h
  · cases xs with
    | nil => exact Or.inl (by simp)
    | cons x0 xs' =>
      cases xs' with
      | nil => exact Or.inl (by simp)
      | cons x1 xs'' => exact Or.inr ⟨h, by simp⟩

/-- C1: with `dt = relaxation_timescale` the update relaxes the state fully
onto the remapped reference, for every column and model level. -/
theorem apply_full_relaxation (state ref : ℕ → ℕ → ℚ) (tau : ℚ)
    (htau : 0 < tau) (c l : ℕ) :
    apply state ref tau tau c l = ref c l := by
  unfold apply
  rw [div_self (ne_of_gt htau)]
  simp

/-- Witness for C1 at a concrete input. -/
theorem apply_full_relaxation_witness :
    (0:ℚ) < 5 ∧
      apply (fun _ _ => 295) (fun _ _ => 305) 5 5 0 0 = 305 := by
  refine ⟨by norm_num, ?_⟩
  have h := apply_full_relaxation (fun _ _ => 295) (fun _ _ => 305) 5
    (by norm_num) 0 0
  simpa using h

/-- C3: for `0 ≤ dt` and `0 < tau` the updated value stays in the closed
interval between the old state value and the reference value, for every
column and level; the clamp prevents overshoot even when `dt > tau`. -/
theorem apply_no_overshoot (state ref : ℕ → ℕ → ℚ) (tau dt : ℚ)
    (htau : 0 < tau) (hdt : 0 ≤ dt) (c l : ℕ) :
    min (state c l) (ref c l) ≤ apply state ref tau dt c l ∧
      apply state ref tau dt c l ≤ max (state c l) (ref c l) := by
  unfold apply
  have hm0 : 0 ≤ min 1 (dt / tau) :=
    le_min (by norm_num) (div_nonneg hdt (le_of_lt htau))
  have hm1 : min 1 (dt / tau) ≤ 1 := min_le_left _ _
  set m := min 1 (dt / tau) with hm
  rcases le_total (state c l) (ref c l) with hle | hle
  · constructor
    · have : state c l ≤ state c l + (ref c l - state c l) * m := by
        nlinarith
      exact le_trans (min_le_left _ _) this
    · have : state c l + (ref c l - state c l) * m ≤ ref c l := by
        nlinarith
      exact le_trans this (le_max_right _ _)
  · constructor
    · have : ref c l ≤ state c l + (ref c l - state c l) * m := by
        nlinarith
      exact le_trans (min_le_right _ _) this
    · have : state c l + (ref c l - state c l) * m ≤ state c l := by
        nlinarith
      exact le_trans this (le_max_left _ _)

/-- Witness for C3 at a concrete input with `dt` exceeding `tau`. -/
theorem apply_no_overshoot_witness :
    min (295:ℚ) 305 ≤ apply (fun _ _ => 295) (fun _ _ => 305) 5 20 0 0 ∧
      apply (fun _ _ => 295) (fun _ _ => 305) 5 20 0 0 ≤ max 295 305 := by
  have h := apply_no_overshoot (fun _ _ => 295) (fun _ _ => 305) 5 20
    (by norm_num) (by norm_num) 0 0
  simpa using h

/-- C2: for a valid bracketing window (built from strictly time-ordered
dataset entries, so `lower.ts < upper.ts`), interpolation at the lower
timestamp returns exactly the lower values and at the upper timestamp
exactly the upper values, for every column and source level. -/
theorem interpolate_endpoints (w : Window)
    (hord : w.lower.ts < w.upper.ts) (c k : ℕ) :
    interpolate w w.lower.ts c k = w.lower.values c k ∧
      interpolate w w.upper.ts c k = w.upper.values c k := by
  have hne : w.upper.ts ≠ w.lower.ts := ne_of_gt hord
  have hsub : w.upper.ts - w.lower.ts ≠ 0 := sub_ne_zero.mpr hne
  constructor
  · unfold interpolate
    rw [if_neg hne]
    simp
  · unfold interpolate
    rw [if_neg hne, div_self hsub]
    ring

/-- Witness for C2 at a concrete window. -/
theorem interpolate_endpoints_witness :
    (let w : Window :=
      ⟨⟨0, [1000, 500], fun _ _ => 300⟩, ⟨10, [1000, 500], fun _ _ => 310⟩⟩
    interpolate w 0 0 0 = 300 ∧ interpolate w 10 0 0 = 310) := by
  have h := interpolate_endpoints
    ⟨⟨0, [1000, 500], fun _ _ => 300⟩, ⟨10, [1000, 500], fun _ _ => 310⟩⟩
    (by norm_num) 0 0
  simpa using h

/-- C6: in the degenerate case of equal timestamps, interpolation returns
the lower snapshot's values unchanged for every time and every column and
source level; the dividing branch of the formula is never taken. -/
theorem interpolate_degenerate (w : Window)
    (heq : w.upper.ts = w.lower.ts) (t : ℚ) (c k : ℕ) :
    interpolate w t c k = w.lower.values c k := by
  unfold interpolate
  rw [if_pos heq]

/-- Witness for C6 at a concrete degenerate window. -/
theorem interpolate_degenerate_witness :
    interpolate ⟨⟨3, [], fun _ _ => 7⟩, ⟨3, [], fun _ _ => 9⟩⟩ 3 0 0 = 7 :=
  interpolate_degenerate ⟨⟨3, [], fun _ _ => 7⟩, ⟨3, [], fun _ _ => 9⟩⟩ rfl 3 0 0

/-- C7: for strictly time-ordered entries whose first timestamp does not
exceed the requested time, `ensure_window` returns a bracketing window
whenever the requested time does not exceed the last dataset timestamp, and
fails with `DataExhausted` whenever it does. -/
theorem ensure_window_brackets (e0 e1 : Snapshot) (rest : List Snapshot)
    (t : ℚ) (hord : TimeOrdered (e0 :: e1 :: rest)) (hfirst : e0.ts ≤ t) :
    (t ≤ lastTs (e0 :: e1 :: rest) →
      ∃ w, ensure_window (e0 :: e1 :: rest) t = Except.ok w ∧
        w.lower.ts ≤ t ∧ t ≤ w.upper.ts) ∧
    (lastTs (e0 :: e1 :: rest) < t →
      ensure_window (e0 :: e1 :: rest) t =
        Except.error NudgeError.DataExhausted) := by
  induction rest generalizing e0 e1 with
  | nil =>
    constructor
    · intro hlast
      have hlast' : t ≤ e1.ts := by simpa [lastTs] using hlast
      exact ⟨⟨e0, e1⟩, by rw [ensure_window_cons, if_pos hlast'],
        hfirst, hlast'⟩
    · intro hlast
      have hlast' : e1.ts < t := by simpa [lastTs] using hlast
      rw [ensure_window_cons, if_neg (not_le.mpr hlast')]
      rfl
  | cons e2 rest ih =>
    rw [TimeOrdered, List.chain'_cons] at hord
    constructor
    · intro hlast
      by_cases hbr : t ≤ e1.ts
      · exact ⟨⟨e0, e1⟩, by rw [ensure_window_cons, if_pos hbr],
          hfirst, hbr⟩
      · have h1t : e1.ts ≤ t := le_of_not_le hbr
        have := (ih e1 e2 hord.2 h1t).1 (by simpa [lastTs] using hlast)
        obtain ⟨w, hw, hwl, hwu⟩ := this
        refine ⟨w, ?_, hwl, hwu⟩
        rw [ensure_window_cons, if_neg hbr]
        exact hw
    · intro hlast
      have hlast' : lastTs (e1 :: e2 :: rest) < t := by
        simpa [lastTs] using hlast
      have h1t : e1.ts < t :=
        lt_of_le_of_lt (head_le_lastTs (e2 :: rest) e1 hord.2) hlast'
      have hrec := (ih e1 e2 hord.2 (le_of_lt h1t)).2 hlast'
      rw [ensure_window_cons, if_neg (not_le.mpr h1t)]
      exact hrec

/-- Witness for C7 at a concrete two-entry dataset. -/
theorem ensure_window_brackets_witness :
    (∃ w, ensure_window
        [⟨0, [], fun _ _ => 0⟩, ⟨10, [], fun _ _ => 0⟩] 5 = Except.ok w ∧
        w.lower.ts ≤ 5 ∧ 5 ≤ w.upper.ts) ∧
      ensure_window [⟨0, [], fun _ _ => 0⟩, ⟨10, [], fun _ _ => 0⟩] 11 =
        Except.error NudgeError.DataExhausted := by
  constructor
  · exact (ensure_window_brackets ⟨0, [], fun _ _ => 0⟩
      ⟨10, [], fun _ _ => 0⟩ [] 5
      (by norm_num [TimeOrdered]) (by norm_num)).1
      (by norm_num [lastTs])
  · exact (ensure_window_brackets ⟨0, [], fun _ _ => 0⟩
      ⟨10, [], fun _ _ => 0⟩ [] 11
      (by norm_num [TimeOrdered]) (by norm_num)).2
      (by norm_num [lastTs])

/-- C9: every store reachable during execution holds at most two snapshots;
a window advance replaces a snapshot instead of accumulating a new one. -/
theorem store_at_most_two (s : Store) (h : StoreReach s) :
    s.snaps.length ≤ 2 := by
  induction h with
  | seed e0 e1 rest => simp
  | advance s s' _ hadv ih =>
    unfold advanceStore at hadv
    cases hrem : s.remaining with
    | nil => rw [hrem] at hadv; exact absurd hadv (by simp)
    | cons e rest =>
      rw [hrem] at hadv
      have hs' : s' = ⟨s.snaps.drop 1 ++ [e], rest⟩ := by
        simpa using hadv.symm
      subst hs'
      simp only [List.length_append, List.length_drop, List.length_singleton]
      omega

/-- Witness for C9 at a concrete reachable store (one advance past seed). -/
theorem store_at_most_two_witness :
    (Store.mk [⟨0, [], fun _ _ => 0⟩, ⟨1, [], fun _ _ => 0⟩]
        [⟨2, [], fun _ _ => 0⟩]).snaps.length ≤ 2 :=
  store_at_most_two _
    (StoreReach.seed ⟨0, [], fun _ _ => 0⟩ ⟨1, [], fun _ _ => 0⟩
      [⟨2, [], fun _ _ => 0⟩])

/-- C4: per column, every remapped value lies within the closed range of
that column's source values, and a target level outside the source
coordinate range receives the value carried by the nearest source level
(flat extrapolation), never a linearly extrapolated value. -/
theorem remap_clamped (xs ys : List ℚ) (t : ℚ)
    (hlen : xs.length = ys.length) (hne : xs ≠ [])
    (hmono : List.Chain' (fun a b : ℚ => a < b) xs ∨
      List.Chain' (fun a b : ℚ => b < a) xs) :
    (colMin ys ≤ remapColumn xs ys t ∧ remapColumn xs ys t ≤ colMax ys) ∧
    ((∀ x ∈ xs, t < x) ∨ (∀ x ∈ xs, x < t) →
      ∃ p ∈ xs.zip ys, remapColumn xs ys t = p.2 ∧
        ∀ q ∈ xs.zip ys, |t - p.1| ≤ |t - q.1|) := by
  have hzlen : (xs.zip ys).length = xs.length := by
    rw [List.length_zip, hlen, min_self]
  have hzne : xs.zip ys ≠ [] := by
    rw [← List.length_pos, hzlen]
    exact List.length_pos.mpr hne
  have hmsnd : (xs.zip ys).map Prod.snd = ys :=
    List.map_snd_zip xs ys (le_of_eq hlen.symm)
  have houtzip : (∀ x ∈ xs, t < x) ∨ (∀ x ∈ xs, x < t) →
      (∀ r ∈ xs.zip ys, t < r.1) ∨ (∀ r ∈ xs.zip ys, r.1 < t) := by
    intro hout
    rcases hout with h | h
    · left; rintro ⟨a, b⟩ hr; exact h a (List.of_mem_zip hr).1
    · right; rintro ⟨a, b⟩ hr; exact h a (List.of_mem_zip hr).1
  rcases mono_cases xs hmono with hincr | ⟨hdecr, h2⟩
  · have hchain := chain_zip_of_chain_fst xs ys _ hlen hincr
    have hred : remapColumn xs ys t = interp1 (xs.zip ys) t := by
      unfold remapColumn
      exact remapPts_incr _ t hchain
    constructor
    · have hb := interp1_bounds _ hchain hzne t
      rw [hmsnd] at hb
      rw [hred]
      exact hb
    · intro hout
      obtain ⟨p, hp, heq, hnear⟩ :=
        interp1_nearest _ hchain hzne t (houtzip hout)
      exact ⟨p, hp, by rw [hred]; exact heq, hnear⟩
  · have hchain' := chain_zip_of_chain_fst xs ys (fun a b => b < a) hlen hdecr
    have hchainrev := chain_reverse_of_decr _ hchain'
    have hz2 : 2 ≤ (xs.zip ys).length := by rw [hzlen]; exact h2
    have hrevne : (xs.zip ys).reverse ≠ [] := by
      simpa using hzne
    have hred : remapColumn xs ys t = interp1 (xs.zip ys).reverse t := by
      unfold remapColumn
      exact remapPts_decr _ t hchain' hz2
    constructor
    · have hb := interp1_bounds _ hchainrev hrevne t
      rw [List.map_reverse, hmsnd, colMin_reverse, colMax_reverse] at hb
      rw [hred]
      exact hb
    · intro hout
      have hout' : (∀ r ∈ (xs.zip ys).reverse, t < r.1) ∨
          (∀ r ∈ (xs.zip ys).reverse, r.1 < t) := by
        rcases houtzip hout with h | h
        · left; intro r hr; exact h r (List.mem_reverse.mp hr)
        · right; intro r hr; exact h r (List.mem_reverse.mp hr)
      obtain ⟨p, hp, heq, hnear⟩ :=
        interp1_nearest _ hchainrev hrevne t hout'
      refine ⟨p, List.mem_reverse.mp hp, by rw [hred]; exact heq, ?_⟩
      intro q hq
      exact hnear q (List.mem_reverse.mpr hq)

/-- Witness for C4 on a concrete decreasing column with the target level
above the whole source range. -/
theorem remap_clamped_witness :
    (colMin [305, 255] ≤ remapColumn [1000, 500] [305, 255] 1200 ∧
      remapColumn [1000, 500] [305, 255] 1200 ≤ colMax [305, 255]) ∧
    (∃ p ∈ ([1000, 500] : List ℚ).zip ([305, 255] : List ℚ),
      remapColumn [1000, 500] [305, 255] 1200 = p.2 ∧
        ∀ q ∈ ([1000, 500] : List ℚ).zip ([305, 255] : List ℚ),
          |(1200:ℚ) - p.1| ≤ |(1200:ℚ) - q.1|) := by
  have h := remap_clamped [1000, 500] [305, 255] 1200 rfl (by simp)
    (Or.inr (by norm_num [List.chain'_cons]))
  refine ⟨h.1, ?_⟩
  have h2 := h.2 (Or.inr (by norm_num))
  exact h2

/-- C5: remapping with identical source and target level coordinates is the
identity — the value returned at the i-th level is exactly the i-th input
value, for every strictly monotonic coordinate array. -/
theorem remap_identity (xs ys : List ℚ)
    (hlen : xs.length = ys.length)
    (hmono : List.Chain' (fun a b : ℚ => a < b) xs ∨
      List.Chain' (fun a b : ℚ => b < a) xs)
    (i : ℕ) (hi : i < xs.length) :
    remapColumn xs ys (xs.get ⟨i, hi⟩) = ys.get ⟨i, hlen ▸ hi⟩ := by
  have hzlen : (xs.zip ys).length = xs.length := by
    rw [List.length_zip, hlen, min_self]
  have hiz : i < (xs.zip ys).length := by rw [hzlen]; exact hi
  have hget : (xs.zip ys).get ⟨i, hiz⟩ =
      (xs.get ⟨i, hi⟩, ys.get ⟨i, hlen ▸ hi⟩) := by
    simp [List.get_eq_getElem, List.getElem_zip]
  rcases mono_cases xs hmono with hincr | ⟨hdecr, h2⟩
  · have hchain := chain_zip_of_chain_fst xs ys _ hlen hincr
    have h := interp1_self _ hchain i hiz
    rw [hget] at h
    unfold remapColumn
    rw [remapPts_incr _ _ hchain]
    exact h
  · have hchain' := chain_zip_of_chain_fst xs ys (fun a b => b < a) hlen hdecr
    have hchainrev := chain_reverse_of_decr _ hchain'
    have hz2 : 2 ≤ (xs.zip ys).length := by rw [hzlen]; exact h2
    unfold remapColumn
    rw [remapPts_decr _ _ hchain' hz2]
    have hj : (xs.zip ys).length - 1 - i < (xs.zip ys).reverse.length := by
      rw [List.length_reverse]
      omega
    have hrevget : (xs.zip ys).reverse.get ⟨(xs.zip ys).length - 1 - i, hj⟩ =
        (xs.zip ys).get ⟨i, hiz⟩ := by
      rw [List.get_eq_getElem, List.get_eq_getElem, List.getElem_reverse]
      congr 1
      show (xs.zip ys).length - 1 - ((xs.zip ys).length - 1 - i) = i
      omega
    have h := interp1_self _ hchainrev ((xs.zip ys).length - 1 - i) hj
    rw [hrevget, hget] at h
    exact h

/-- Witness for C5 on a concrete decreasing coordinate array. -/
theorem remap_identity_witness :
    remapColumn [1000, 500] [305, 255] 1000 = 305 := by
  have h := remap_identity [1000, 500] [305, 255] rfl
    (Or.inr (by norm_num [List.chain'_cons])) 0 (by norm_num)
  simpa using h

/-- C8: a `run` call after `finalize` is rejected with `InvalidState`; no
successor driver is produced, so the state field is not mutated. -/
theorem run_after_finalize (d : Driver) (t dt : ℚ)
    (h : d.phase = Phase.Finalized) :
    runStep d t dt = Except.error NudgeError.InvalidState ∧
      ∀ d', runStep d t dt ≠ Except.ok d' := by
  have heq : runStep d t dt = Except.error NudgeError.InvalidState := by
    unfold runStep
    rw [h]
  exact ⟨heq, fun d' hok => by rw [heq] at hok; cases hok⟩

/-- Witness for C8 on a concrete finalized driver. -/
theorem run_after_finalize_witness :
    runStep ⟨Phase.Finalized, [], [], 1, fun _ _ => 0⟩ 0 0 =
      Except.error NudgeError.InvalidState :=
  (run_after_finalize ⟨Phase.Finalized, [], [], 1, fun _ _ => 0⟩ 0 0 rfl).1

lemma staticSetAfter_mono :
    ∀ (calls : List String) (s : Finset String), s ⊆ staticSetAfter calls s := by
  intro calls
  induction calls with
  | nil => intro s; exact Finset.Subset.refl s
  | cons g calls ih =>
    intro s x hx
    exact ih (insert g s) (Finset.mem_insert_of_mem hx)

lemma mem_staticSetAfter :
    ∀ (calls : List String) (s : Finset String) (x : String),
      x ∈ calls → x ∈ staticSetAfter calls s := by
  intro calls
  induction calls with
  | nil => intro s x hx; cases hx
  | cons g calls ih =>
    intro s x hx
    rcases List.mem_cons.mp hx with h | h
    · subst h
      exact staticSetAfter_mono calls _ (Finset.mem_insert_self x s)
    · exact ih _ x h

/-- C10: a `get_required_grids` call returns a set containing the calling
instance's "Grid" parameter, but since the set is a function-local static
shared across instances, after prior calls with other "Grid" values the
returned set also contains every one of those values. -/
theorem get_required_grids_shared (prior : List String) (g : String)
    (s0 : Finset String) :
    g ∈ (get_required_grids g (staticSetAfter prior s0)).1 ∧
      ∀ x ∈ prior, x ∈ (get_required_grids g (staticSetAfter prior s0)).1 := by
  constructor
  · exact Finset.mem_insert_self _ _
  · intro x hx
    exact Finset.mem_insert_of_mem (mem_staticSetAfter prior s0 x hx)

/-- Witness for C10: after an instance configured with "Physics GLL" has
been queried, a second instance configured with "Point Grid" returns a set
containing both values. -/
theorem get_required_grids_shared_witness :
    "Point Grid" ∈
      (get_required_grids "Point Grid" (staticSetAfter ["Physics GLL"] ∅)).1 ∧
    "Physics GLL" ∈
      (get_required_grids "Point Grid" (staticSetAfter ["Physics GLL"] ∅)).1 := by
  have h := get_required_grids_shared ["Physics GLL"] "Point Grid" ∅
  exact ⟨h.1, h.2 "Physics GLL" (by simp)⟩

end Scream
